import Mathlib

namespace Webcrawler

/-!
Verification of the `snehauniyal1011/webcrawler` repository (files
`crawler.py` and `app.py`) against its natural-language specification.

Python text values (`str`) are modelled as lists of Unicode code points
(`List Nat`); `str` below converts a Lean string literal to this
representation for concrete test inputs.  URL identity inside the crawl
scheduler is modelled with Lean `String` (Python string equality), and
character-level operations convert through `str`.
-/

/-- Convert a Lean string literal to the code-point-list representation of a
Python `str` value. -/
def str (s : String) : List Nat := s.data.map Char.toNat

/-- Code point of `'A'`–`'Z'` test, as used by ASCII case analysis. -/
def isUpperA (c : Nat) : Bool := 65 ≤ c && c ≤ 90

/-- Code point of `'a'`–`'z'` test. -/
def isLowerA (c : Nat) : Bool := 97 ≤ c && c ≤ 122

/-- ASCII letter test; models `str.isalpha()` restricted to ASCII together
with the `str.isascii()` guard that CPython's scheme parsing performs. -/
def isAlphaA (c : Nat) : Bool := isUpperA c || isLowerA c

/-- ASCII digit test. -/
def isDigitA (c : Nat) : Bool := 48 ≤ c && c ≤ 57

/-- ASCII case folding of one code point; models Python `str.lower()` on the
ASCII range (the only range exercised by URL schemes; non-ASCII points are
left unchanged, an intentional restriction of the model). -/
def lowerChar (c : Nat) : Nat := if isUpperA c then c + 32 else c

/-- Case folding of a whole text. -/
def lowerStr (l : List Nat) : List Nat := l.map lowerChar

/-! ### Substring search

Model of the Python `in` operator on strings: `containsSub needle hay` is
true when `needle` occurs contiguously in `hay`. -/

/-- Does `hay` begin with `needle`? -/
def startsWithL : List Nat → List Nat → Bool
  | [], _ => true
  | _ :: _, [] => false
  | a :: as, b :: bs => a == b && startsWithL as bs

/-- Does `needle` occur contiguously anywhere in `hay`?  Models Python
`needle in hay` for strings. -/
def containsSub (needle : List Nat) : List Nat → Bool
  | [] => startsWithL needle []
  | b :: bs => startsWithL needle (b :: bs) || containsSub needle bs

/-! ### URL parsing

Model of the parts of CPython's `urllib.parse.urlparse` used by
`crawler.py` (`normalize_url`, lines 59-61 of `crawler.py`).  The model
follows `urllib.parse.urlsplit`: optional scheme (lower-cased, recognised
only when the text before the first `':'` is nonempty, starts with an
ASCII letter and consists of scheme characters), optional `//`-introduced
network location (ending at the first `/`, `?` or `#`), then fragment
split at the first `#`, query split at the first `?`, and — for
`urlparse` — parameters split at the first `;` of the last `/`-segment of
the path.  Control-character stripping performed by recent CPython
versions is not modelled (inputs are assumed free of control characters).
Code points: `':' = 58`, `'/' = 47`, `'?' = 63`, `'#' = 35`, `';' = 59`. -/

/-- Characters allowed in a URL scheme (`urllib.parse.scheme_chars`):
ASCII letters, digits, `'+'` (43), `'-'` (45) and `'.'` (46). -/
def isSchemeChar (c : Nat) : Bool :=
  isAlphaA c || isDigitA c || c == 43 || c == 45 || c == 46

/-- Split a list at the first occurrence of `ch`: returns the part before
and the part after (the occurrence itself removed), or `none` when `ch`
does not occur. -/
def splitAtFirst (ch : Nat) : List Nat → Option (List Nat × List Nat)
  | [] => none
  | c :: cs =>
    if c = ch then some ([], cs)
    else
      match splitAtFirst ch cs with
      | none => none
      | some (a, b) => some (c :: a, b)

/-- Is the first character an ASCII letter?  Models the
`url[0].isascii() and url[0].isalpha()` guard of `urlsplit`. -/
def headIsAlpha : List Nat → Bool
  | [] => false
  | c :: _ => isAlphaA c

/-- Scheme extraction of `urlsplit`: the text before the first `':'` is a
scheme when it is nonempty, the URL starts with an ASCII letter, and all
its characters are scheme characters; the scheme is lower-cased. -/
def splitScheme (url : List Nat) : List Nat × List Nat :=
  match splitAtFirst 58 url with
  | none => ([], url)
  | some (before, after) =>
    if !before.isEmpty && headIsAlpha url && before.all isSchemeChar then
      (before.map lowerChar, after)
    else ([], url)

/-- Is the character a netloc delimiter (`'/'`, `'?'` or `'#'`)? -/
def isNetlocDelim (c : Nat) : Bool := c == 47 || c == 63 || c == 35

/-- Netloc extraction of `urlsplit`: when the rest starts with `//`, the
netloc extends to the first `/`, `?` or `#`. -/
def splitNetloc (rest : List Nat) : List Nat × List Nat :=
  if rest.take 2 = [47, 47] then
    ((rest.drop 2).takeWhile (fun c => !isNetlocDelim c),
     (rest.drop 2).dropWhile (fun c => !isNetlocDelim c))
  else ([], rest)

/-- Fragment split of `urlsplit` (`url.split('#', 1)`). -/
def splitFragment (rest : List Nat) : List Nat × List Nat :=
  match splitAtFirst 35 rest with
  | none => (rest, [])
  | some (a, b) => (a, b)

/-- Query split of `urlsplit` (`url.split('?', 1)`). -/
def splitQuery (rest : List Nat) : List Nat × List Nat :=
  match splitAtFirst 63 rest with
  | none => (rest, [])
  | some (a, b) => (a, b)

/-- The part of `p` after its last `'/'` (all of `p` when it has no
`'/'`).  Used by `_splitparams`. -/
def lastSegment (p : List Nat) : List Nat :=
  (p.reverse.takeWhile (fun c => !(c == 47))).reverse

/-- The part of `p` up to and including its last `'/'`. -/
def beforeLastSegment (p : List Nat) : List Nat :=
  (p.reverse.dropWhile (fun c => !(c == 47))).reverse

/-- Parameter split of `urlparse` (`_splitparams`): when the path contains
a `';'`, the parameters start at the first `';'` of the last `/`-segment
(of the whole path when it has no `'/'`). -/
def splitParams (p : List Nat) : List Nat × List Nat :=
  if p.contains 59 then
    if p.contains 47 then
      match splitAtFirst 59 (lastSegment p) with
      | none => (p, [])
      | some (a, b) => (beforeLastSegment p ++ a, b)
    else
      match splitAtFirst 59 p with
      | none => (p, [])
      | some (a, b) => (a, b)
  else (p, [])

/-- Result of `urllib.parse.urlparse`. -/
structure UrlParts where
  scheme : List Nat
  netloc : List Nat
  path : List Nat
  params : List Nat
  query : List Nat
  fragment : List Nat
deriving Repr, DecidableEq

/-- Model of `urllib.parse.urlparse`: scheme split, then netloc, then
fragment, then query (the `urlsplit` order), then parameters. -/
def urlparse (url : List Nat) : UrlParts :=
  let sp := splitScheme url
  let nl := splitNetloc sp.2
  let fr := splitFragment nl.2
  let qu := splitQuery fr.1
  let pp := splitParams qu.1
  ⟨sp.1, nl.1, pp.1, pp.2, qu.2, fr.2⟩

/-- Model of `normalize_url` (`crawler.py` lines 59-61):
`f"{parsed.scheme}://{parsed.netloc}{parsed.path}"`. -/
def normalize_url (url : List Nat) : List Nat :=
  let p := urlparse url
  p.scheme ++ (58 :: 47 :: 47 :: (p.netloc ++ p.path))

/-! ### Keyword matching

Model of `check_keywords` (`crawler.py` lines 63-65):
```python

def check_keywords(content):
    content_lower = content.lower()
    return [kw for kw in KEYWORDS if kw.lower() in content_lower]
```
The keyword list is passed explicitly (in the source it is the module
global `KEYWORDS`, set by the UI before a run). -/

/-- Model of `check_keywords`: lower-case the content once, then keep, in
configuration order, exactly the keywords whose lower-cased form occurs in
the lowered content. -/
def check_keywords (keywords : List String) (content : String) : List String :=
  let content_lower := lowerStr (str content)
  keywords.filter (fun kw => containsSub (lowerStr (str kw)) content_lower)

/-- Specification-side predicate, written from the spec's words: keyword
`kw` occurs somewhere in `content` under case-insensitive substring
comparison. -/
def OccursCI (kw content : String) : Prop :=
  ∃ l r, lowerStr (str content) = l ++ lowerStr (str kw) ++ r

/-! ### Fetcher with retry

Model of `fetch_url` (`crawler.py` lines 46-54), decorated with
`@retry(stop=stop_after_attempt(3), wait=wait_exponential(multiplier=1,
min=2, max=10))`: an HTTP GET whose transport errors and non-2xx statuses
raise, retried up to 3 attempts in total with exponential backoff. -/

/-- Tenacity's `wait_exponential(multiplier=1, min=2, max=10)`: the wait
slept after failing attempt `n` is `max(2, min(1 * 2^n, 10))` seconds. -/
def wait_exponential (n : Nat) : Nat := max 2 (min (2 ^ n) 10)

/-- Model of one `fetch_url` call: `succ k` tells whether the `k`-th HTTP
attempt (1-based) would succeed.  Returns the overall outcome, the number
of attempts actually made, and the backoff waits slept between attempts
(no wait is slept after the final failing attempt — the stop condition
fires first). -/
def fetch_url (succ : Nat → Bool) : Bool × Nat × List Nat :=
  if succ 1 then (true, 1, [])
  else if succ 2 then (true, 2, [wait_exponential 1])
  else if succ 3 then (true, 3, [wait_exponential 1, wait_exponential 2])
  else (false, 3, [wait_exponential 1, wait_exponential 2])

/-! ### Robots policy gate -/

/-- Model of `can_fetch` (`crawler.py` lines 43-44): delegates to the
loaded ruleset `rp.can_fetch(USER_AGENT, url)`, modelled as a permission
oracle from URL to Bool. -/
def can_fetch (rules : String → Bool) (url : String) : Bool := rules url

/-! ### The crawl scheduler

Model of `crawl()` (`crawler.py` lines 88-145).  URLs and page text are
Lean `String`s (Python string equality).  Fetching and HTML parsing are
summarised by two oracles in the configuration: per-URL per-attempt fetch
outcomes, and the parsed content of each page (title, extracted
same-domain normalized links with anchor text, `<img>` URL/alt pairs, and
plain text).  `datetime.now().isoformat()` timestamps are modelled by a
counter that increases at every successful fetch.  Two event logs —
`fetchLog` and `dequeueLog` — record, respectively, each call of
`fetch_url` and each dequeue decision (URL taken, whether it came from
the low-priority queue, and the high-priority queue at the moment of
selection); they have no effect on control flow. -/

/-- Parsed data of one fetched page, as the crawl body reads it from
`BeautifulSoup` and `extract_links_and_images`. -/
structure Page where
  title : String
  text : String
  links : List (String × String)
  imgs : List (String × String)

/-- Inputs of one crawl run: the configuration globals of `crawler.py`
plus the network and robots oracles. -/
structure CrawlConfig where
  seed : String                -- TARGET_URL
  maxCrawl : Nat               -- MAX_CRAWL
  keywords : List String       -- KEYWORDS
  robots : String → Bool       -- ruleset loaded by load_robots_txt (rp)
  succ : String → Nat → Bool   -- does the k-th attempt on this URL succeed?
  content : String → Page      -- page data on fetch success

/-- Mutable module state of `crawler.py` during a run, plus the two event
logs. -/
structure CrawlState where
  highQ : List String          -- high_priority_queue (front = head)
  lowQ : List String           -- low_priority_queue
  visited : List String        -- visited_urls
  pages : List (String × String × Nat)                      -- all_pages
  images : List (String × String × String × String × Nat)   -- all_images
  linksFound : List (String × String × String × String × Nat) -- all_links_found
  kwMatches : List (String × String × List String × Nat)    -- keyword_matches
  crawlCount : Nat             -- crawl_count
  tick : Nat                   -- timestamp source
  fetchLog : List String
  dequeueLog : List (String × Bool × List String)
deriving Repr, DecidableEq

/-- Python `set.add` on a set represented as a duplicate-free list. -/
def setInsert {α : Type} [DecidableEq α] (x : α) (l : List α) : List α :=
  if x ∈ l then l else l ++ [x]

/-- Python dict assignment `d[k] = v` on an insertion-ordered association
list: overwrite in place when the key exists, else append. -/
def mapInsert (k : String) (v : String × List String × Nat)
    (m : List (String × String × List String × Nat)) :
    List (String × String × List String × Nat) :=
  if m.any (fun e => e.1 == k) then
    m.map (fun e => if e.1 == k then (k, v) else e)
  else m ++ [(k, v)]

/-- Model of `any(re.search(rf'/{kw}/', link[0], re.I) for kw in KEYWORDS)`
(`crawler.py` line 135), for keywords free of regex metacharacters:
case-insensitive substring search for `/keyword/`. -/
def kwPathHit (keywords : List String) (url : String) : Bool :=
  keywords.any fun kw =>
    containsSub (lowerStr (str "/" ++ str kw ++ str "/")) (lowerStr (str url))

/-- One iteration of the `while` body of `crawl` (`crawler.py` lines
97-145), to be run under the loop guard.  The politeness sleep of line 140
has no observable effect in the model and is omitted. -/
def crawlStep (cfg : CrawlConfig) (st : CrawlState) : CrawlState :=
  -- line 97: take from the high-priority queue unless it is empty
  let fromLow := st.highQ.isEmpty
  let u := if st.highQ.isEmpty then st.lowQ.headD "" else st.highQ.headD ""
  let st1 : CrawlState := { st with
    highQ := if st.highQ.isEmpty then st.highQ else st.highQ.tail,
    lowQ := if st.highQ.isEmpty then st.lowQ.tail else st.lowQ,
    dequeueLog := st.dequeueLog ++ [(u, fromLow, st.highQ)] }
  -- lines 99-100: already-visited URLs are skipped without fetching
  if u ∈ st1.visited then st1
  else
    -- line 105: fetch_url is called (the 3 attempts happen inside it)
    let st2 := { st1 with fetchLog := st1.fetchLog ++ [u] }
    if (fetch_url (cfg.succ u)).1 then
      let pg := cfg.content u
      let ts := st2.tick
      -- line 106: visited_urls.add(current_url)
      let visited' := setInsert u st2.visited
      -- line 112: all_pages.add((current_url, page_title, timestamp))
      let pages' := setInsert (u, pg.title, ts) st2.pages
      -- lines 114-117: all_images.add(...) per img tag
      let images' := pg.imgs.foldl
        (fun acc i => setInsert (i.1, i.2, pg.title, u, ts) acc) st2.images
      -- lines 119-121: all_links_found.add(...) per extracted link
      let links' := pg.links.foldl
        (fun acc l => setInsert (l.1, l.2, pg.title, u, ts) acc) st2.linksFound
      -- lines 123-131: keyword classification of the page text
      let matched := check_keywords cfg.keywords pg.text
      let kw' := if matched.isEmpty then st2.kwMatches
                 else mapInsert u (pg.title, matched, ts) st2.kwMatches
      -- lines 133-138: enqueue newly discovered links
      let qs := pg.links.foldl
        (fun (qs : List String × List String) l =>
          if l.1 ∉ visited' ∧ ¬ pages'.any (fun r => r.1 == l.1) then
            if kwPathHit cfg.keywords l.1 then (qs.1 ++ [l.1], qs.2)
            else (qs.1, qs.2 ++ [l.1])
          else qs)
        (st1.highQ, st1.lowQ)
      { st2 with
        visited := visited', pages := pages', images := images',
        linksFound := links', kwMatches := kw',
        highQ := qs.1, lowQ := qs.2,
        crawlCount := st2.crawlCount + 1, tick := st2.tick + 1 }
    -- lines 143-145: any failure is caught; nothing is recorded
    else st2

/-- The `while` loop of `crawl` (line 96), with a fuel bound on the number
of iterations: `crawlLoop fuel` runs at most `fuel` guarded iterations. -/
def crawlLoop (cfg : CrawlConfig) : Nat → CrawlState → CrawlState
  | 0, st => st
  | fuel + 1, st =>
    if (st.highQ ≠ [] ∨ st.lowQ ≠ []) ∧ st.crawlCount < cfg.maxCrawl then
      crawlLoop cfg fuel (crawlStep cfg st)
    else st

/-- Module-level initial state (`crawler.py` lines 19-27): empty
accumulators, and the seed URL placed — unnormalized — on the
high-priority queue. -/
def initState (cfg : CrawlConfig) : CrawlState :=
  { highQ := [cfg.seed], lowQ := [], visited := [], pages := [], images := [],
    linksFound := [], kwMatches := [], crawlCount := 0, tick := 0,
    fetchLog := [], dequeueLog := [] }

/-- Model of `crawl()` (lines 88-145): return immediately when no target
URL is set, else run the loop.  The robots ruleset is loaded at line 93
but — notably — never consulted afterwards. -/
def crawl (cfg : CrawlConfig) (fuel : Nat) : CrawlState :=
  if cfg.seed = "" then initState cfg else crawlLoop cfg fuel (initState cfg)

/-! ### Result sink

Model of `save_results` (`crawler.py` lines 147-174) at the row level.
CSV serialization, the derived file-type column of the images table, and
the filesystem are outside the model; what is modelled is which tables are
written and in which row order.  Python's `sorted(..., key=timestamp,
reverse=True)` is modelled by an insertion sort on the timestamp key
descending (tie order among equal timestamps is unspecified in the source
as well, since the accumulators are unordered sets). -/

/-- Insert into a list already sorted by `key` descending. -/
def insertDesc {α : Type} (key : α → Nat) (x : α) : List α → List α
  | [] => [x]
  | y :: t => if key y ≤ key x then x :: y :: t else y :: insertDesc key x t

/-- Sort by `key`, descending. -/
def sortDesc {α : Type} (key : α → Nat) : List α → List α
  | [] => []
  | x :: t => insertDesc key x (sortDesc key t)

/-- The adjacent-pairs property named by the spec: every row's timestamp
is at least the following row's. -/
def rowsSortedDesc {α : Type} (key : α → Nat) : List α → Bool
  | [] => true
  | [_] => true
  | x :: y :: t => key y ≤ key x && rowsSortedDesc key (y :: t)

/-- Rows of the four output files of `save_results`.  `kwRows = none`
models the `keyword_matches.csv` file not being written at all. -/
structure SavedOutput where
  pagesRows : List (String × String × Nat)
  imagesRows : List (String × String × String × String × Nat)
  linksRows : List (String × String × String × String × Nat)
  kwRows : Option (List (String × String × List String × Nat))
deriving Repr, DecidableEq

/-- Model of `save_results`: pages (line 153), images (line 159) and links
(line 166) are sorted by their timestamp component descending; the
keyword-matches file (lines 169-174) is written only when the accumulator
is non-empty, in dict insertion order, with row shape
`(title, url, keywords, timestamp)`. -/
def save_results (st : CrawlState) : SavedOutput :=
  { pagesRows := sortDesc (fun r => r.2.2) st.pages,
    imagesRows := sortDesc (fun r => r.2.2.2.2) st.images,
    linksRows := sortDesc (fun r => r.2.2.2.2) st.linksFound,
    kwRows := if st.kwMatches.isEmpty then none
              else some (st.kwMatches.map fun e => (e.2.1, e.1, e.2.2.1, e.2.2.2)) }

/-- The pieces of the run invariant, on the relevant components: page
URLs are distinct, every recorded page is visited, every recorded
timestamp is in the past, and the page counter counts the recorded
pages. -/
def InvC (pages : List (String × String × Nat)) (visited : List String)
    (tick count : Nat) : Prop :=
  (pages.map (fun r => r.1)).Nodup ∧
  (∀ r ∈ pages, r.1 ∈ visited) ∧
  (∀ r ∈ pages, r.2.2 < tick) ∧
  count = pages.length

/-- The run invariant of a crawl state. -/
def Inv (st : CrawlState) : Prop :=
  InvC st.pages st.visited st.tick st.crawlCount

/-- Every logged dequeue that came from the low-priority queue saw an
empty high-priority queue at the moment of selection. -/
def DeqOk (st : CrawlState) : Prop :=
  ∀ e ∈ st.dequeueLog, e.2.1 = true → e.2.2 = []

/-- A URL whose fetch always fails never enters the visited set or the
page accumulator. -/
def Avoids (u : String) (st : CrawlState) : Prop :=
  u ∉ st.visited ∧ u ∉ st.pages.map (fun r => r.1)

/-- Number of occurrences of a URL across the two frontier queues. -/
def occ (u : String) (st : CrawlState) : Nat :=
  st.highQ.count u + st.lowQ.count u

/-! ### Concrete test scenarios

Small concrete configurations used by witnesses and counterexamples. -/

/-- Page with given title, text and links, and no images. -/
def pageOf (title text : String) (links : List (String × String)) : Page :=
  { title := title, text := text, links := links, imgs := [] }

/-- Scenario: seed `A` links to `B` and `U`; `B` links to `U` again; every
fetch attempt on `U` fails, everything else succeeds at once. -/
def cfgFail : CrawlConfig :=
  { seed := "A", maxCrawl := 3, keywords := [],
    robots := fun _ => true,
    succ := fun u _ => !(u == "U"),
    content := fun u =>
      if u == "A" then pageOf "tA" "" [("B", "x"), ("U", "y")]
      else if u == "B" then pageOf "tB" "" [("U", "y")]
      else pageOf "tU" "" [] }

/-- Scenario: the loaded robots ruleset disallows every URL; fetches
succeed. -/
def cfgRobots : CrawlConfig :=
  { seed := "http://a/", maxCrawl := 1, keywords := [],
    robots := fun _ => false,
    succ := fun _ _ => true,
    content := fun _ => pageOf "t" "" [] }

/-- Scenario: seed `A` links to `B`; both pages contain the configured
keyword `cat`. -/
def cfgKw : CrawlConfig :=
  { seed := "A", maxCrawl := 2, keywords := ["cat"],
    robots := fun _ => true,
    succ := fun _ _ => true,
    content := fun u =>
      if u == "A" then pageOf "tA" "a cat" [("B", "x")]
      else pageOf "tB" "a cat too" [] }

/-- Scenario: every fetch fails twice and succeeds at the third attempt. -/
def cfgRetry : CrawlConfig :=
  { seed := "A", maxCrawl := 1, keywords := [],
    robots := fun _ => true,
    succ := fun _ k => decide (k = 3),
    content := fun _ => pageOf "tA" "" [] }

/-- A state in which `U` has already been visited and still has one stale
copy in the low-priority queue. -/
def stVisited : CrawlState :=
  { highQ := [], lowQ := ["U"], visited := ["U"], pages := [("U", "tU", 0)],
    images := [], linksFound := [], kwMatches := [], crawlCount := 1,
    tick := 1, fetchLog := ["U"], dequeueLog := [("U", false, ["U"])] }

/-! ## Theorems -/

theorem lowerChar_of_not_upper {c : Nat} (h : isUpperA c = false) :
    lowerChar c = c := by
  simp [lowerChar, h]

theorem lowerChar_not_upper (c : Nat) : isUpperA (lowerChar c) = false := by
  simp only [lowerChar, isUpperA]
  split <;> simp_all <;> omega

theorem lowerChar_idem (c : Nat) : lowerChar (lowerChar c) = lowerChar c :=
  lowerChar_of_not_upper (lowerChar_not_upper c)

theorem lowerStr_idem (l : List Nat) : lowerStr (lowerStr l) = lowerStr l := by
  simp [lowerStr, Function.comp, lowerChar_idem]

theorem startsWithL_iff (n h : List Nat) :
    startsWithL n h = true ↔ ∃ r, h = n ++ r := by
  induction n generalizing h with
  | nil => simp [startsWithL]
  | cons a as ih =>
    cases h with
    | nil =>
      simp [startsWithL]
    | cons b bs =>
      simp only [startsWithL, Bool.and_eq_true, beq_iff_eq, ih, List.cons_append,
        List.cons.injEq]
      constructor
      · rintro ⟨rfl, r, rfl⟩; exact ⟨r, rfl, rfl⟩
      · rintro ⟨r, rfl, rfl⟩; exact ⟨rfl, r, rfl⟩

theorem containsSub_iff (n h : List Nat) :
    containsSub n h = true ↔ ∃ l r, h = l ++ n ++ r := by
  induction h with
  | nil =>
    simp only [containsSub, startsWithL_iff]
    constructor
    · rintro ⟨r, hr⟩; exact ⟨[], r, by simpa using hr⟩
    · rintro ⟨l, r, hr⟩
      rcases List.append_eq_nil.1 (List.append_eq_nil.1 hr.symm).1 with ⟨rfl, rfl⟩
      exact ⟨r, by simpa using hr⟩
  | cons b bs ih =>
    simp only [containsSub, Bool.or_eq_true, startsWithL_iff, ih]
    constructor
    · rintro (⟨r, hr⟩ | ⟨l, r, hr⟩)
      · exact ⟨[], r, by simpa using hr⟩
      · exact ⟨b :: l, r, by simp [hr]⟩
    · rintro ⟨l, r, hr⟩
      cases l with
      | nil => exact Or.inl ⟨r, by simpa using hr⟩
      | cons x xs =>
        simp only [List.cons_append, List.cons.injEq] at hr
        exact Or.inr ⟨xs, r, hr.2⟩

/-! ### Supporting lemmas about the URL parser -/

theorem splitAtFirst_eq_none {ch : Nat} {l : List Nat} :
    splitAtFirst ch l = none ↔ ch ∉ l := by
  induction l with
  | nil => simp [splitAtFirst]
  | cons c cs ih =>
    by_cases hc : c = ch
    · subst hc; simp [splitAtFirst]
    · cases hs : splitAtFirst ch cs with
      | none =>
        have hm : ch ∉ cs := ih.1 hs
        simp only [splitAtFirst, if_neg hc, hs, List.mem_cons]
        constructor
        · intro _ h
          rcases h with rfl | h
          · exact hc rfl
          · exact hm h
        · intro _; trivial
      | some p =>
        obtain ⟨a, b⟩ := p
        have hm : ch ∈ cs := by
          by_contra hmm
          rw [ih.2 hmm] at hs; cases hs
        simp only [splitAtFirst, if_neg hc, hs, List.mem_cons]
        constructor
        · intro h; cases h
        · intro h; exact absurd (Or.inr hm) h

theorem splitAtFirst_eq_some {ch : Nat} {l a b : List Nat}
    (h : splitAtFirst ch l = some (a, b)) : l = a ++ ch :: b ∧ ch ∉ a := by
  induction l generalizing a with
  | nil => simp [splitAtFirst] at h
  | cons c cs ih =>
    by_cases hc : c = ch
    · subst hc
      simp only [splitAtFirst, if_pos rfl, Option.some.injEq, Prod.mk.injEq] at h
      obtain ⟨rfl, rfl⟩ := h
      simp
    · simp only [splitAtFirst, if_neg hc] at h
      cases hs : splitAtFirst ch cs with
      | none => rw [hs] at h; cases h
      | some p =>
        obtain ⟨a', b'⟩ := p
        rw [hs] at h
        simp only [Option.some.injEq, Prod.mk.injEq] at h
        obtain ⟨rfl, rfl⟩ := h
        obtain ⟨rfl, hna⟩ := ih hs
        refine ⟨rfl, ?_⟩
        intro hmem
        rcases List.mem_cons.1 hmem with rfl | hmem
        · exact hc rfl
        · exact hna hmem

theorem splitAtFirst_append {ch : Nat} {a b : List Nat} (h : ch ∉ a) :
    splitAtFirst ch (a ++ ch :: b) = some (a, b) := by
  induction a with
  | nil => simp [splitAtFirst]
  | cons c cs ih =>
    have hc : c ≠ ch := fun hc => h (hc ▸ List.mem_cons_self c cs)
    have hcs : ch ∉ cs := fun hm => h (List.mem_cons_of_mem _ hm)
    simp [splitAtFirst, if_neg hc, ih hcs]

theorem mem_of_mem_takeWhile {f : Nat → Bool} {x : Nat} {l : List Nat}
    (h : x ∈ l.takeWhile f) : x ∈ l := by
  rw [← List.takeWhile_append_dropWhile f l]
  exact List.mem_append_left _ h

theorem mem_of_mem_dropWhile {f : Nat → Bool} {x : Nat} {l : List Nat}
    (h : x ∈ l.dropWhile f) : x ∈ l := by
  rw [← List.takeWhile_append_dropWhile f l]
  exact List.mem_append_right _ h

theorem takeWhile_append_of_mem_neg {f : Nat → Bool} {l₁ l₂ : List Nat} {x : Nat}
    (hx : x ∈ l₁) (hfx : f x = false) :
    (l₁ ++ l₂).takeWhile f = l₁.takeWhile f := by
  induction l₁ with
  | nil => cases hx
  | cons a t ih =>
    cases ha : f a with
    | false => simp [List.takeWhile_cons, ha]
    | true =>
      have hxt : x ∈ t := by
        rcases List.mem_cons.1 hx with rfl | hm
        · rw [ha] at hfx; cases hfx
        · exact hm
      simp [List.takeWhile_cons, ha, ih hxt]

theorem takeWhile_eq_self_of_all {f : Nat → Bool} {l : List Nat}
    (h : ∀ x ∈ l, f x = true) : l.takeWhile f = l := by
  have := @List.takeWhile_append_of_pos _ f l ([] : List Nat) h
  simpa using this

theorem mem_lastSegment {x : Nat} {p : List Nat} (h : x ∈ lastSegment p) : x ∈ p := by
  unfold lastSegment at h
  rw [List.mem_reverse] at h
  exact List.mem_reverse.1 (mem_of_mem_takeWhile h)

theorem lastSegment_of_no_slash {p : List Nat} (h : 47 ∉ p) : lastSegment p = p := by
  unfold lastSegment
  rw [takeWhile_eq_self_of_all, List.reverse_reverse]
  intro x hx
  have : x ≠ 47 := fun hc => h (hc ▸ List.mem_reverse.1 hx)
  simp [this]

theorem beforeLastSegment_append_lastSegment (p : List Nat) :
    beforeLastSegment p ++ lastSegment p = p := by
  unfold beforeLastSegment lastSegment
  rw [← List.reverse_append, List.takeWhile_append_dropWhile, List.reverse_reverse]

theorem mem_beforeLastSegment {x : Nat} {p : List Nat}
    (h : x ∈ beforeLastSegment p) : x ∈ p := by
  unfold beforeLastSegment at h
  rw [List.mem_reverse] at h
  exact List.mem_reverse.1 (mem_of_mem_dropWhile h)

theorem dropWhile_eq_cons_head {f : Nat → Bool} {l : List Nat} {c : Nat}
    {w : List Nat} (h : l.dropWhile f = c :: w) : f c = false := by
  induction l with
  | nil => cases h
  | cons a t ih =>
    rw [List.dropWhile_cons] at h
    split at h
    · exact ih h
    · cases h; simp_all

theorem isSchemeChar_lowerChar {c : Nat} (h : isSchemeChar c = true) :
    isSchemeChar (lowerChar c) = true := by
  simp only [isSchemeChar, isAlphaA, isUpperA, isLowerA, isDigitA, lowerChar] at h ⊢
  split <;> simp_all <;> omega

theorem isAlphaA_lowerChar {c : Nat} (h : isAlphaA c = true) :
    isAlphaA (lowerChar c) = true := by
  simp only [isAlphaA, isUpperA, isLowerA, lowerChar] at h ⊢
  split <;> simp_all <;> omega

theorem lowerChar_ne_58 {c : Nat} (h : isSchemeChar c = true) :
    lowerChar c ≠ 58 := by
  simp only [isSchemeChar, isAlphaA, isUpperA, isLowerA, isDigitA, lowerChar] at h ⊢
  split <;> simp_all <;> omega

theorem good_splitParams (q : List Nat) :
    59 ∉ lastSegment ((splitParams q).1) := by
  unfold splitParams
  by_cases h59 : 59 ∈ q
  · by_cases h47 : 47 ∈ q
    · simp only [List.elem_eq_mem, h59, h47, decide_True, if_true]
      cases hs : splitAtFirst 59 (lastSegment q) with
      | none =>
        exact fun hm => (splitAtFirst_eq_none.1 hs) hm
      | some p =>
        obtain ⟨a, b⟩ := p
        obtain ⟨hla, hna⟩ := splitAtFirst_eq_some hs
        -- the last segment of `q` contains no `'/'`, hence neither does `a`
        have h47seg : 47 ∉ lastSegment q := by
          intro hm
          unfold lastSegment at hm
          rw [List.mem_reverse] at hm
          have := List.mem_takeWhile_imp hm
          simp at this
        have h47a : (47 : Nat) ∉ a := fun hm =>
          h47seg (hla ▸ List.mem_append_left _ hm)
        -- the part before the last slash ends with a slash
        have hbl : ∃ w, (beforeLastSegment q).reverse = 47 :: w := by
          unfold beforeLastSegment
          rw [List.reverse_reverse]
          cases hd : q.reverse.dropWhile (fun c => !(c == 47)) with
          | nil =>
            exfalso
            have : ∀ y ∈ q.reverse, (fun c : Nat => !(c == 47)) y = true := by
              rw [← List.dropWhile_eq_nil_iff]; exact hd
            have := this 47 (List.mem_reverse.2 h47)
            simp at this
          | cons c w =>
            have hc : (fun c : Nat => !(c == 47)) c = false := dropWhile_eq_cons_head hd
            simp only [Bool.not_eq_false', beq_iff_eq] at hc
            exact ⟨w, by rw [hc]⟩
        obtain ⟨w, hw⟩ := hbl
        -- compute the last segment of the rebuilt path
        have hseg : lastSegment (beforeLastSegment q ++ a) = a := by
          unfold lastSegment
          rw [List.reverse_append, hw]
          have hall : ∀ y ∈ a.reverse, (fun c : Nat => !(c == 47)) y = true := by
            intro y hy
            have : y ≠ 47 := fun hc => h47a (hc ▸ List.mem_reverse.1 hy)
            simp [this]
          rw [List.takeWhile_append_of_pos hall]
          simp [List.takeWhile_cons]
        simp only [hseg]
        exact hna
    · simp only [List.elem_eq_mem, h59, h47, decide_True, decide_False,
        if_true, if_false, Bool.false_eq_true]
      cases hs : splitAtFirst 59 q with
      | none => exact absurd h59 (splitAtFirst_eq_none.1 hs)
      | some p =>
        obtain ⟨a, b⟩ := p
        obtain ⟨hla, hna⟩ := splitAtFirst_eq_some hs
        have h47a : (47 : Nat) ∉ a := fun hm =>
          h47 (hla ▸ List.mem_append_left _ hm)
        rw [lastSegment_of_no_slash h47a]
        exact hna
  · simp only [List.elem_eq_mem, h59, decide_False, Bool.false_eq_true, if_false]
    exact fun hm => h59 (mem_lastSegment hm)

theorem mem_splitParams {x : Nat} {q : List Nat}
    (h : x ∈ (splitParams q).1) : x ∈ q := by
  unfold splitParams at h
  by_cases h59 : 59 ∈ q
  · by_cases h47 : 47 ∈ q
    · simp only [List.elem_eq_mem, h59, h47, decide_True, if_true] at h
      cases hs : splitAtFirst 59 (lastSegment q) with
      | none => rw [hs] at h; exact h
      | some p =>
        obtain ⟨a, b⟩ := p
        rw [hs] at h
        obtain ⟨hla, _⟩ := splitAtFirst_eq_some hs
        rcases List.mem_append.1 h with hm | hm
        · exact mem_beforeLastSegment hm
        · exact mem_lastSegment (hla ▸ List.mem_append_left _ hm)
    · simp only [List.elem_eq_mem, h59, h47, decide_True, decide_False,
        if_true, if_false, Bool.false_eq_true] at h
      cases hs : splitAtFirst 59 q with
      | none => rw [hs] at h; exact h
      | some p =>
        obtain ⟨a, b⟩ := p
        rw [hs] at h
        obtain ⟨hla, _⟩ := splitAtFirst_eq_some hs
        exact hla ▸ List.mem_append_left _ h
  · simp only [List.elem_eq_mem, h59, decide_False, Bool.false_eq_true, if_false] at h
    exact h

theorem urlparse_scheme (u : List Nat) : (urlparse u).scheme = (splitScheme u).1 := rfl

theorem urlparse_netloc (u : List Nat) :
    (urlparse u).netloc = (splitNetloc (splitScheme u).2).1 := rfl

theorem urlparse_path (u : List Nat) :
    (urlparse u).path =
      (splitParams (splitQuery (splitFragment (splitNetloc (splitScheme u).2).2).1).1).1 :=
  rfl

theorem normalize_url_eq (u : List Nat) :
    normalize_url u =
      (urlparse u).scheme ++ 58 :: 47 :: 47 :: ((urlparse u).netloc ++ (urlparse u).path) :=
  rfl

theorem splitNetloc_fst_no_delim (r : List Nat) :
    ∀ x ∈ (splitNetloc r).1, isNetlocDelim x = false := by
  intro x hx
  unfold splitNetloc at hx
  split at hx
  · have := List.mem_takeWhile_imp hx
    simpa using this
  · cases hx

theorem splitFragment_fst_no35 (r : List Nat) : 35 ∉ (splitFragment r).1 := by
  unfold splitFragment
  cases hs : splitAtFirst 35 r with
  | none => exact splitAtFirst_eq_none.1 hs
  | some p =>
    obtain ⟨a, b⟩ := p
    exact (splitAtFirst_eq_some hs).2

theorem splitQuery_fst_no63 (r : List Nat) : 63 ∉ (splitQuery r).1 := by
  unfold splitQuery
  cases hs : splitAtFirst 63 r with
  | none => exact splitAtFirst_eq_none.1 hs
  | some p =>
    obtain ⟨a, b⟩ := p
    exact (splitAtFirst_eq_some hs).2

theorem mem_splitQuery_fst {x : Nat} {r : List Nat}
    (h : x ∈ (splitQuery r).1) : x ∈ r := by
  unfold splitQuery at h
  cases hs : splitAtFirst 63 r with
  | none => rw [hs] at h; exact h
  | some p =>
    obtain ⟨a, b⟩ := p
    rw [hs] at h
    exact (splitAtFirst_eq_some hs).1 ▸ List.mem_append_left _ h

theorem lastSegment_dropWhile {f : Nat → Bool} {p : List Nat}
    (h47 : 47 ∈ p.dropWhile f) :
    lastSegment (p.dropWhile f) = lastSegment p := by
  unfold lastSegment
  conv_rhs => rw [← List.takeWhile_append_dropWhile f p]
  rw [List.reverse_append]
  rw [takeWhile_append_of_mem_neg (x := 47) (List.mem_reverse.2 h47) (by simp)]

theorem splitParams_dropWhile {p : List Nat}
    (hp35 : 35 ∉ p) (hp63 : 63 ∉ p) (hpGood : 59 ∉ lastSegment p) :
    splitParams (p.dropWhile (fun c => !isNetlocDelim c)) =
      (p.dropWhile (fun c => !isNetlocDelim c), []) := by
  by_cases h59 : 59 ∈ p.dropWhile (fun c => !isNetlocDelim c)
  · have h47 : 47 ∈ p.dropWhile (fun c => !isNetlocDelim c) := by
      cases hd : p.dropWhile (fun c => !isNetlocDelim c) with
      | nil => rw [hd] at h59; cases h59
      | cons c w =>
        have hc := dropWhile_eq_cons_head hd
        have hcp : c ∈ p := mem_of_mem_dropWhile (hd ▸ List.mem_cons_self c w)
        have hc47 : c = 47 := by
          simp only [Bool.not_eq_false', isNetlocDelim, Bool.or_eq_true, beq_iff_eq] at hc
          rcases hc with (h | h) | h
          · exact h
          · exact absurd (h ▸ hcp) hp63
          · exact absurd (h ▸ hcp) hp35
        rw [hc47]
        exact List.mem_cons_self _ _
    have hseg : 59 ∉ lastSegment (p.dropWhile (fun c => !isNetlocDelim c)) := by
      rw [lastSegment_dropWhile h47]
      exact hpGood
    unfold splitParams
    simp only [List.elem_eq_mem, h59, h47, decide_True, if_true]
    rw [splitAtFirst_eq_none.2 hseg]
  · unfold splitParams
    simp only [List.elem_eq_mem, h59, decide_False, Bool.false_eq_true, if_false]

theorem splitScheme_reconstructed {s : List Nat} (m : List Nat)
    (hne : s ≠ []) (halpha : headIsAlpha s = true)
    (hsch : s.all isSchemeChar = true) (hlow : s.map lowerChar = s) :
    splitScheme (s ++ 58 :: m) = (s, m) := by
  have h58 : (58 : Nat) ∉ s := by
    intro hm
    have := (List.all_eq_true.1 hsch) 58 hm
    simp [isSchemeChar, isAlphaA, isUpperA, isLowerA, isDigitA] at this
  unfold splitScheme
  rw [splitAtFirst_append h58]
  have h1 : (!s.isEmpty) = true := by
    cases s
    · exact absurd rfl hne
    · simp
  have h2 : headIsAlpha (s ++ 58 :: m) = true := by
    cases s with
    | nil => exact absurd rfl hne
    | cons c cs => simpa [headIsAlpha] using halpha
  simp only [h1, h2, hsch, Bool.and_self, if_true, hlow]

theorem urlparse_reconstructed {s n p : List Nat}
    (hne : s ≠ []) (halpha : headIsAlpha s = true)
    (hsch : s.all isSchemeChar = true) (hlow : s.map lowerChar = s)
    (hn : ∀ x ∈ n, isNetlocDelim x = false)
    (hp35 : 35 ∉ p) (hp63 : 63 ∉ p) (hpGood : 59 ∉ lastSegment p) :
    urlparse (s ++ 58 :: 47 :: 47 :: (n ++ p)) =
      ⟨s, n ++ p.takeWhile (fun c => !isNetlocDelim c),
       p.dropWhile (fun c => !isNetlocDelim c), [], [], []⟩ := by
  have hfn : ∀ x ∈ n, (fun c => !isNetlocDelim c) x = true := by
    intro x hx; simp [hn x hx]
  have hsp : splitScheme (s ++ 58 :: 47 :: 47 :: (n ++ p)) = (s, 47 :: 47 :: (n ++ p)) :=
    splitScheme_reconstructed _ hne halpha hsch hlow
  have hnl : splitNetloc (47 :: 47 :: (n ++ p)) =
      (n ++ p.takeWhile (fun c => !isNetlocDelim c),
       p.dropWhile (fun c => !isNetlocDelim c)) := by
    unfold splitNetloc
    have ht : List.take 2 (47 :: 47 :: (n ++ p)) = [47, 47] := rfl
    rw [if_pos ht]
    simp only [List.drop_succ_cons, List.drop_zero]
    rw [List.takeWhile_append_of_pos hfn, List.dropWhile_append_of_pos hfn]
  have hq35 : 35 ∉ p.dropWhile (fun c => !isNetlocDelim c) :=
    fun hm => hp35 (mem_of_mem_dropWhile hm)
  have hq63 : 63 ∉ p.dropWhile (fun c => !isNetlocDelim c) :=
    fun hm => hp63 (mem_of_mem_dropWhile hm)
  have hfrag : splitFragment (p.dropWhile (fun c => !isNetlocDelim c)) =
      (p.dropWhile (fun c => !isNetlocDelim c), []) := by
    unfold splitFragment
    rw [splitAtFirst_eq_none.2 hq35]
  have hquery : splitQuery (p.dropWhile (fun c => !isNetlocDelim c)) =
      (p.dropWhile (fun c => !isNetlocDelim c), []) := by
    unfold splitQuery
    rw [splitAtFirst_eq_none.2 hq63]
  have hparams := splitParams_dropWhile hp35 hp63 hpGood
  unfold urlparse
  rw [hsp]
  simp only [hnl, hfrag, hquery, hparams]

theorem normalize_url_idem_of_scheme (u : List Nat)
    (h : (urlparse u).scheme ≠ []) :
    normalize_url (normalize_url u) = normalize_url u := by
  rw [urlparse_scheme] at h
  cases hsp : splitAtFirst 58 u with
  | none =>
    exfalso
    apply h
    unfold splitScheme
    rw [hsp]
  | some pr =>
    obtain ⟨b, a⟩ := pr
    by_cases hcond : (!b.isEmpty && headIsAlpha u && b.all isSchemeChar) = true
    · have hsch : splitScheme u = (b.map lowerChar, a) := by
        unfold splitScheme
        rw [hsp]
        show (if (!b.isEmpty && headIsAlpha u && b.all isSchemeChar) = true then
            (b.map lowerChar, a) else ([], u)) = (b.map lowerChar, a)
        rw [if_pos hcond]
      obtain ⟨hbu, h58b⟩ := splitAtFirst_eq_some hsp
      have hbne : b ≠ [] := by
        intro hnil
        rw [hnil] at hcond
        simp at hcond
      have halU : headIsAlpha u = true := by
        simp only [Bool.and_eq_true] at hcond
        exact hcond.1.2
      have hballs : b.all isSchemeChar = true := by
        simp only [Bool.and_eq_true] at hcond
        exact hcond.2
      -- facts about the lower-cased scheme
      have hs_ne : b.map lowerChar ≠ [] := by
        intro hnil
        exact hbne (List.map_eq_nil_iff.1 hnil)
      have hs_alpha : headIsAlpha (b.map lowerChar) = true := by
        cases b with
        | nil => exact absurd rfl hbne
        | cons c cs =>
          rw [hbu] at halU
          simp only [List.cons_append, headIsAlpha] at halU
          simpa [headIsAlpha] using isAlphaA_lowerChar halU
      have hs_sch : (b.map lowerChar).all isSchemeChar = true := by
        rw [List.all_eq_true]
        intro x hx
        obtain ⟨y, hy, rfl⟩ := List.mem_map.1 hx
        exact isSchemeChar_lowerChar (List.all_eq_true.1 hballs y hy)
      have hs_low : (b.map lowerChar).map lowerChar = b.map lowerChar := by
        rw [List.map_map]
        exact List.map_congr_left fun y _ => lowerChar_idem y
      -- facts about the netloc and path pieces of the original parse
      have hnfact := splitNetloc_fst_no_delim a
      have hp35 : 35 ∉ (urlparse u).path := by
        rw [urlparse_path]
        intro hm
        exact splitFragment_fst_no35 _
          (mem_splitQuery_fst (mem_splitParams hm))
      have hp63 : 63 ∉ (urlparse u).path := by
        rw [urlparse_path]
        intro hm
        exact splitQuery_fst_no63 _ (mem_splitParams hm)
      have hpGood : 59 ∉ lastSegment (urlparse u).path := by
        rw [urlparse_path]
        exact good_splitParams _
      -- the reconstructed URL parses back compatibly
      have hrec := urlparse_reconstructed (n := (urlparse u).netloc)
        (p := (urlparse u).path) hs_ne hs_alpha hs_sch hs_low
        (by rw [urlparse_netloc, hsch]; exact hnfact) hp35 hp63 hpGood
      have hnu : normalize_url u =
          b.map lowerChar ++
            58 :: 47 :: 47 :: ((urlparse u).netloc ++ (urlparse u).path) := by
        rw [normalize_url_eq, urlparse_scheme, hsch]
      rw [hnu, normalize_url_eq, hrec]
      simp only [List.append_assoc, List.takeWhile_append_dropWhile]
    · exfalso
      apply h
      unfold splitScheme
      rw [hsp]
      show (if (!b.isEmpty && headIsAlpha u && b.all isSchemeChar) = true then
          (b.map lowerChar, a) else ([], u)).1 = []
      rw [if_neg hcond]

/-- Claim C10 (amended): `normalize_url` is idempotent on every URL whose
parse yields a nonempty scheme (in particular on every `http`/`https`
URL); equivalently, such normalized URLs are fixed points of
`normalize_url`. -/
theorem claim_C10 (u : List Nat) (h : (urlparse u).scheme ≠ []) :
    normalize_url (normalize_url u) = normalize_url u :=
  normalize_url_idem_of_scheme u h

/-- Witness for claim C10 at the concrete URL `http://a/b`. -/
theorem claim_C10_witness :
    (urlparse (str "http://a/b")).scheme ≠ [] ∧
      normalize_url (normalize_url (str "http://a/b")) =
        normalize_url (str "http://a/b") :=
  ⟨by decide, claim_C10 (str "http://a/b") (by decide)⟩

/-- Counterexample to claim C10 as stated: for the scheme-less URL string
`example.com`, `normalize_url` is not idempotent — a second application
prepends another `://`. -/
theorem claim_C10_counterexample :
    normalize_url (normalize_url (str "example.com")) ≠
      normalize_url (str "example.com") := by decide

/-- Claim C7: `check_keywords` returns exactly the subset of configured
keywords that occur in the text under case-insensitive substring
comparison, in configuration order (the result is a sublist of the
configured list), and the empty keyword list always yields the empty
result. -/
theorem claim_C7 (kws : List String) (content : String) :
    check_keywords [] content = [] ∧
      List.Sublist (check_keywords kws content) kws ∧
      ∀ kw, kw ∈ check_keywords kws content ↔ kw ∈ kws ∧ OccursCI kw content := by
  refine ⟨rfl, List.filter_sublist _, fun kw => ?_⟩
  rw [check_keywords, List.mem_filter]
  exact and_congr_right fun _ => containsSub_iff _ _

/-! ### Sortedness of the result sink -/

theorem insertDesc_sorted {α : Type} (key : α → Nat) (x : α) (l : List α)
    (h : rowsSortedDesc key l = true) :
    rowsSortedDesc key (insertDesc key x l) = true := by
  induction l with
  | nil => rfl
  | cons y t ih =>
    by_cases hxy : key y ≤ key x
    · simp only [insertDesc, if_pos hxy, rowsSortedDesc, Bool.and_eq_true]
      exact ⟨by simpa using hxy, h⟩
    · simp only [insertDesc, if_neg hxy]
      cases t with
      | nil =>
        simp only [insertDesc, rowsSortedDesc, Bool.and_eq_true]
        exact ⟨by simp; omega, trivial⟩
      | cons z t' =>
        simp only [rowsSortedDesc, Bool.and_eq_true] at h
        obtain ⟨hzy, hrest⟩ := h
        by_cases hzx : key z ≤ key x
        · simp only [insertDesc, if_pos hzx, rowsSortedDesc, Bool.and_eq_true]
          refine ⟨by simp; omega, by simpa using hzx, ?_⟩
          simpa [rowsSortedDesc, Bool.and_eq_true] using hrest
        · have := ih hrest
          simp only [insertDesc, if_neg hzx] at this ⊢
          simp only [rowsSortedDesc, Bool.and_eq_true]
          exact ⟨hzy, this⟩

theorem sortDesc_sorted {α : Type} (key : α → Nat) (l : List α) :
    rowsSortedDesc key (sortDesc key l) = true := by
  induction l with
  | nil => rfl
  | cons x t ih => exact insertDesc_sorted key x _ ih

/-! ### Lemmas about the crawl scheduler -/

theorem mem_setInsert {α : Type} [DecidableEq α] {x y : α} {l : List α} :
    y ∈ setInsert x l ↔ y = x ∨ y ∈ l := by
  unfold setInsert
  split
  · constructor
    · exact Or.inr
    · rintro (rfl | hm)
      · assumption
      · exact hm
  · simp [List.mem_append, or_comm]

theorem setInsert_of_not_mem {α : Type} [DecidableEq α] {x : α} {l : List α}
    (h : x ∉ l) : setInsert x l = l ++ [x] := by
  unfold setInsert
  rw [if_neg h]

theorem nodup_append_singleton {α : Type} {l : List α} {a : α}
    (hl : l.Nodup) (ha : a ∉ l) : (l ++ [a]).Nodup := by
  rw [List.nodup_append]
  exact ⟨hl, List.nodup_singleton a, fun x hx hxa =>
    ha ((List.mem_singleton.1 hxa) ▸ hx)⟩

theorem invC_success {pages : List (String × String × Nat)} {visited : List String}
    {tick count : Nat} {u t : String} (hu : u ∉ visited)
    (h : InvC pages visited tick count) :
    InvC (setInsert (u, t, tick) pages) (setInsert u visited) (tick + 1) (count + 1) := by
  obtain ⟨hnd, hvis, htk, hcnt⟩ := h
  have hnotmem : (u, t, tick) ∉ pages := fun hm => lt_irrefl tick (htk _ hm)
  rw [setInsert_of_not_mem hnotmem]
  refine ⟨?_, ?_, ?_, ?_⟩
  · rw [List.map_append]
    refine nodup_append_singleton hnd ?_
    intro hm
    obtain ⟨r, hr, hru⟩ := List.mem_map.1 hm
    have hru' : r.1 = u := hru
    apply hu
    rw [← hru']
    exact hvis r hr
  · intro r hr
    rcases List.mem_append.1 hr with hm | hm
    · exact mem_setInsert.2 (Or.inr (hvis r hm))
    · rw [List.mem_singleton.1 hm]
      exact mem_setInsert.2 (Or.inl rfl)
  · intro r hr
    rcases List.mem_append.1 hr with hm | hm
    · exact Nat.lt_succ_of_lt (htk r hm)
    · rw [List.mem_singleton.1 hm]
      exact Nat.lt_succ_self tick
  · simpa using hcnt

theorem crawlStep_inv {cfg : CrawlConfig} {st : CrawlState} (h : Inv st) :
    Inv (crawlStep cfg st) := by
  obtain ⟨hnd, hvis, htk, hcnt⟩ := h
  simp only [crawlStep]
  split
  · split
    · exact ⟨hnd, hvis, htk, hcnt⟩
    · split
      · next hvisited _ => exact invC_success hvisited ⟨hnd, hvis, htk, hcnt⟩
      · exact ⟨hnd, hvis, htk, hcnt⟩
  · split
    · exact ⟨hnd, hvis, htk, hcnt⟩
    · split
      · next hvisited _ => exact invC_success hvisited ⟨hnd, hvis, htk, hcnt⟩
      · exact ⟨hnd, hvis, htk, hcnt⟩

theorem crawlLoop_inv {cfg : CrawlConfig} (fuel : Nat) {st : CrawlState}
    (h : Inv st) : Inv (crawlLoop cfg fuel st) := by
  induction fuel generalizing st with
  | zero => exact h
  | succ n ih =>
    simp only [crawlLoop]
    split
    · exact ih (crawlStep_inv h)
    · exact h

theorem inv_initState (cfg : CrawlConfig) : Inv (initState cfg) :=
  ⟨List.nodup_nil, by simp [initState], by simp [initState], rfl⟩

theorem crawlStep_count_le (cfg : CrawlConfig) (st : CrawlState) :
    (crawlStep cfg st).crawlCount ≤ st.crawlCount + 1 := by
  simp only [crawlStep]
  split <;> split <;> (try split) <;> simp

theorem crawlLoop_count_le {cfg : CrawlConfig} (fuel : Nat) {st : CrawlState}
    (h : st.crawlCount ≤ cfg.maxCrawl) :
    (crawlLoop cfg fuel st).crawlCount ≤ cfg.maxCrawl := by
  induction fuel generalizing st with
  | zero => exact h
  | succ n ih =>
    simp only [crawlLoop]
    split
    · next hguard =>
      refine ih ?_
      calc (crawlStep cfg st).crawlCount ≤ st.crawlCount + 1 := crawlStep_count_le cfg st
        _ ≤ cfg.maxCrawl := hguard.2
    · exact h

theorem crawlStep_dequeueLog (cfg : CrawlConfig) (st : CrawlState) :
    ∃ u, (crawlStep cfg st).dequeueLog =
      st.dequeueLog ++ [(u, st.highQ.isEmpty, st.highQ)] := by
  simp only [crawlStep]
  split <;> split <;> (try split) <;> exact ⟨_, rfl⟩

theorem crawlStep_deqOk {cfg : CrawlConfig} {st : CrawlState} (h : DeqOk st) :
    DeqOk (crawlStep cfg st) := by
  obtain ⟨u, hu⟩ := crawlStep_dequeueLog cfg st
  intro e he
  rw [hu] at he
  rcases List.mem_append.1 he with hm | hm
  · exact h e hm
  · rw [List.mem_singleton.1 hm]
    intro hlow
    simpa using List.isEmpty_iff.1 hlow

theorem crawlLoop_deqOk {cfg : CrawlConfig} (fuel : Nat) {st : CrawlState}
    (h : DeqOk st) : DeqOk (crawlLoop cfg fuel st) := by
  induction fuel generalizing st with
  | zero => exact h
  | succ n ih =>
    simp only [crawlLoop]
    split
    · exact ih (crawlStep_deqOk h)
    · exact h

theorem mem_map_fst_setInsert {x : String × String × Nat}
    {l : List (String × String × Nat)} {y : String}
    (h : y ∈ (setInsert x l).map (fun r => r.1)) :
    y ∈ l.map (fun r => r.1) ∨ y = x.1 := by
  unfold setInsert at h
  split at h
  · exact Or.inl h
  · rw [List.map_append] at h
    rcases List.mem_append.1 h with hm | hm
    · exact Or.inl hm
    · exact Or.inr (List.mem_singleton.1 hm)

theorem crawlStep_avoids {cfg : CrawlConfig} {st : CrawlState} {u : String}
    (hf : (fetch_url (cfg.succ u)).1 = false) (h : Avoids u st) :
    Avoids u (crawlStep cfg st) := by
  obtain ⟨hv, hp⟩ := h
  have key : ∀ (u' : String),
      (fetch_url (cfg.succ u')).1 = true →
      ∀ (t : String) (ts : Nat),
        (u ∉ setInsert u' st.visited) ∧
        (u ∉ (setInsert (u', t, ts) st.pages).map (fun r => r.1)) := by
    intro u' hsucc t ts
    have hne : u ≠ u' := fun heq => by rw [heq, hsucc] at hf; cases hf
    constructor
    · intro hm
      rcases mem_setInsert.1 hm with rfl | hm
      · exact hne rfl
      · exact hv hm
    · intro hm
      rcases mem_map_fst_setInsert hm with hm | hm
      · exact hp hm
      · exact hne hm
  simp only [crawlStep]
  split <;> split
  · exact ⟨hv, hp⟩
  · split
    · next hvisited hsucc => exact key _ hsucc _ _
    · exact ⟨hv, hp⟩
  · exact ⟨hv, hp⟩
  · split
    · next hvisited hsucc => exact key _ hsucc _ _
    · exact ⟨hv, hp⟩

theorem crawlLoop_avoids {cfg : CrawlConfig} (fuel : Nat) {st : CrawlState}
    {u : String} (hf : (fetch_url (cfg.succ u)).1 = false) (h : Avoids u st) :
    Avoids u (crawlLoop cfg fuel st) := by
  induction fuel generalizing st with
  | zero => exact h
  | succ n ih =>
    simp only [crawlLoop]
    split
    · exact ih (crawlStep_avoids hf h)
    · exact h

theorem count_tail_le {u : String} (l : List String) :
    l.tail.count u ≤ l.count u := by
  cases l with
  | nil => exact Nat.le_refl _
  | cons a t =>
    rw [List.tail_cons, List.count_cons]
    exact Nat.le_add_right _ _

theorem enqueue_fold_count {cfg : CrawlConfig} {u : String}
    {visited' : List String} {pages' : List (String × String × Nat)}
    (hu : u ∈ visited') (links : List (String × String))
    (init : List String × List String) :
    (links.foldl
      (fun (qs : List String × List String) l =>
        if l.1 ∉ visited' ∧ ¬ pages'.any (fun r => r.1 == l.1) then
          if kwPathHit cfg.keywords l.1 then (qs.1 ++ [l.1], qs.2)
          else (qs.1, qs.2 ++ [l.1])
        else qs)
      init).1.count u +
    (links.foldl
      (fun (qs : List String × List String) l =>
        if l.1 ∉ visited' ∧ ¬ pages'.any (fun r => r.1 == l.1) then
          if kwPathHit cfg.keywords l.1 then (qs.1 ++ [l.1], qs.2)
          else (qs.1, qs.2 ++ [l.1])
        else qs)
      init).2.count u = init.1.count u + init.2.count u := by
  induction links generalizing init with
  | nil => rfl
  | cons l ls ih =>
    simp only [List.foldl_cons]
    by_cases hcond : l.1 ∉ visited' ∧ ¬ pages'.any (fun r => r.1 == l.1) = true
    · have hne : l.1 ≠ u := fun heq => hcond.1 (heq ▸ hu)
      rw [if_pos hcond]
      by_cases hkw : kwPathHit cfg.keywords l.1 = true
      · rw [if_pos hkw, ih]
        simp [List.count_append, List.count_singleton, hne]
      · rw [if_neg hkw, ih]
        simp [List.count_append, List.count_singleton, hne]
    · rw [if_neg hcond]
      exact ih init

theorem crawlStep_occ {cfg : CrawlConfig} {st : CrawlState} {u : String}
    (hu : u ∈ st.visited) :
    occ u (crawlStep cfg st) ≤ occ u st ∧ u ∈ (crawlStep cfg st).visited := by
  simp only [crawlStep, occ]
  split
  · next hempty =>
    split
    · exact ⟨Nat.add_le_add (Nat.le_refl _) (count_tail_le _), hu⟩
    · split
      · next hvisited hsucc =>
        refine ⟨?_, mem_setInsert.2 (Or.inr hu)⟩
        rw [enqueue_fold_count (mem_setInsert.2 (Or.inr hu))]
        exact Nat.add_le_add (Nat.le_refl _) (count_tail_le _)
      · exact ⟨Nat.add_le_add (Nat.le_refl _) (count_tail_le _), hu⟩
  · next hempty =>
    split
    · exact ⟨Nat.add_le_add (count_tail_le _) (Nat.le_refl _), hu⟩
    · split
      · next hvisited hsucc =>
        refine ⟨?_, mem_setInsert.2 (Or.inr hu)⟩
        rw [enqueue_fold_count (mem_setInsert.2 (Or.inr hu))]
        exact Nat.add_le_add (count_tail_le _) (Nat.le_refl _)
      · exact ⟨Nat.add_le_add (count_tail_le _) (Nat.le_refl _), hu⟩

theorem crawlLoop_occ {cfg : CrawlConfig} (fuel : Nat) {st : CrawlState}
    {u : String} (hu : u ∈ st.visited) :
    occ u (crawlLoop cfg fuel st) ≤ occ u st := by
  induction fuel generalizing st with
  | zero => exact Nat.le_refl _
  | succ n ih =>
    simp only [crawlLoop]
    split
    · obtain ⟨hle, hmem⟩ := @crawlStep_occ cfg st u hu
      exact Nat.le_trans (ih hmem) hle
    · exact Nat.le_refl _

theorem crawlStep_kw_empty {cfg : CrawlConfig} {st : CrawlState}
    (hk : cfg.keywords = []) (h : st.kwMatches = []) :
    (crawlStep cfg st).kwMatches = [] := by
  simp only [crawlStep, hk, check_keywords, List.filter_nil, List.isEmpty_nil,
    if_true]
  split <;> split <;> (try split) <;> exact h

theorem crawlLoop_kw_empty {cfg : CrawlConfig} (fuel : Nat) {st : CrawlState}
    (hk : cfg.keywords = []) (h : st.kwMatches = []) :
    (crawlLoop cfg fuel st).kwMatches = [] := by
  induction fuel generalizing st with
  | zero => exact h
  | succ n ih =>
    simp only [crawlLoop]
    split
    · exact ih (crawlStep_kw_empty hk h)
    · exact h

theorem crawlStep_robots (cfg : CrawlConfig) (r : String → Bool)
    (st : CrawlState) :
    crawlStep { cfg with robots := r } st = crawlStep cfg st := rfl

theorem crawlLoop_robots (cfg : CrawlConfig) (r : String → Bool) (fuel : Nat)
    (st : CrawlState) :
    crawlLoop { cfg with robots := r } fuel st = crawlLoop cfg fuel st := by
  induction fuel generalizing st with
  | zero => rfl
  | succ n ih =>
    simp only [crawlLoop, crawlStep_robots]
    split <;> first | exact ih _ | rfl

theorem crawlStep_fetch_congr {cfg : CrawlConfig} {s₂ : String → Nat → Bool}
    (h : ∀ u, (fetch_url (s₂ u)).1 = (fetch_url (cfg.succ u)).1)
    (st : CrawlState) :
    crawlStep { cfg with succ := s₂ } st = crawlStep cfg st := by
  simp only [crawlStep, h]

theorem crawlLoop_fetch_congr {cfg : CrawlConfig} {s₂ : String → Nat → Bool}
    (h : ∀ u, (fetch_url (s₂ u)).1 = (fetch_url (cfg.succ u)).1)
    (fuel : Nat) (st : CrawlState) :
    crawlLoop { cfg with succ := s₂ } fuel st = crawlLoop cfg fuel st := by
  induction fuel generalizing st with
  | zero => rfl
  | succ n ih =>
    simp only [crawlLoop, crawlStep_fetch_congr h]
    split <;> first | exact ih _ | rfl

theorem crawl_seed_recorded {cfg : CrawlConfig} (hmax : 0 < cfg.maxCrawl)
    (hs : (fetch_url (cfg.succ cfg.seed)).1 = true) :
    cfg.seed ∈ ((crawlLoop cfg 1 (initState cfg)).pages.map fun r => r.1) := by
  simp only [crawlLoop, initState]
  rw [if_pos ⟨Or.inl (by simp), hmax⟩]
  simp only [crawlStep, List.isEmpty_cons, Bool.false_eq_true, if_false,
    List.headD_cons, List.tail_cons, List.not_mem_nil]
  rw [if_pos hs]
  simp [setInsert]

/-! ### Claims -/

/-- Claim C1 (amended): `can_fetch` evaluates the loaded ruleset, but the
crawl loop never consults it — the whole run is independent of the robots
ruleset, so disallowed URLs are fetched like any others. -/
theorem claim_C1 (cfg : CrawlConfig) (r : String → Bool) (fuel : Nat)
    (st : CrawlState) :
    crawlLoop { cfg with robots := r } fuel st = crawlLoop cfg fuel st :=
  crawlLoop_robots cfg r fuel st

/-- Counterexample to claim C1 as stated: the loaded ruleset disallows
`http://a/` (`can_fetch` answers false), yet the run issues an HTTP fetch
for it — and, the fetch succeeding, it also consumes a page-budget
slot. -/
theorem claim_C1_counterexample :
    can_fetch cfgRobots.robots "http://a/" = false ∧
      "http://a/" ∈ (crawlLoop cfgRobots 1 (initState cfgRobots)).fetchLog ∧
      (crawlLoop cfgRobots 1 (initState cfgRobots)).crawlCount = 1 := by decide

/-- Claim C2: on every run the page counter never exceeds `MAX_CRAWL`, and
the URLs of the recorded PageRecords are pairwise distinct. -/
theorem claim_C2 (cfg : CrawlConfig) (fuel : Nat) :
    (crawlLoop cfg fuel (initState cfg)).crawlCount ≤ cfg.maxCrawl ∧
      ((crawlLoop cfg fuel (initState cfg)).pages.map (fun r => r.1)).Nodup :=
  ⟨crawlLoop_count_le fuel (Nat.zero_le _),
   (crawlLoop_inv fuel (inv_initState cfg)).1⟩

/-- Claim C3: at every dequeue decision of the crawl loop, a URL is taken
from the low-priority queue only when the high-priority queue is empty at
that moment. -/
theorem claim_C3 (cfg : CrawlConfig) (fuel : Nat) (u : String) (fl : Bool)
    (hq : List String)
    (h : (u, fl, hq) ∈ (crawlLoop cfg fuel (initState cfg)).dequeueLog)
    (hfl : fl = true) : hq = [] :=
  crawlLoop_deqOk fuel (fun _ he => absurd he (List.not_mem_nil _)) (u, fl, hq) h hfl

/-- Witness for claim C3: in the `cfgFail` run, `B` is dequeued from the
low-priority queue, and the logged high-priority queue is indeed empty. -/
theorem claim_C3_witness :
    ("B", true, ([] : List String)) ∈
        (crawlLoop cfgFail 2 (initState cfgFail)).dequeueLog ∧
      ([] : List String) = [] :=
  ⟨by decide, claim_C3 cfgFail 2 "B" true [] (by decide) rfl⟩

/-- Claim C4 (amended): a URL whose fetch always fails terminally yields
no PageRecord and never enters the visited set, and the page counter
counts exactly the recorded pages (so it is never incremented for such a
URL); however, not being remembered anywhere, the URL can be re-enqueued
and re-fetched when it is discovered again. -/
theorem claim_C4 (cfg : CrawlConfig) (fuel : Nat) (u : String)
    (hf : (fetch_url (cfg.succ u)).1 = false) :
    u ∉ (crawlLoop cfg fuel (initState cfg)).pages.map (fun r => r.1) ∧
      u ∉ (crawlLoop cfg fuel (initState cfg)).visited ∧
      (crawlLoop cfg fuel (initState cfg)).crawlCount =
        (crawlLoop cfg fuel (initState cfg)).pages.length := by
  have ha := @crawlLoop_avoids cfg fuel (initState cfg) u hf
    ⟨by simp [initState], by simp [initState]⟩
  exact ⟨ha.2, ha.1, (crawlLoop_inv fuel (inv_initState cfg)).2.2.2⟩

/-- Witness for claim C4 at the `cfgFail` scenario with the always-failing
URL `U`. -/
theorem claim_C4_witness :
    (fetch_url (cfgFail.succ "U")).1 = false ∧
      ("U" ∉ (crawlLoop cfgFail 10 (initState cfgFail)).pages.map (fun r => r.1) ∧
        "U" ∉ (crawlLoop cfgFail 10 (initState cfgFail)).visited ∧
        (crawlLoop cfgFail 10 (initState cfgFail)).crawlCount =
          (crawlLoop cfgFail 10 (initState cfgFail)).pages.length) :=
  ⟨by decide, claim_C4 cfgFail 10 "U" (by decide)⟩

/-- Counterexample to claim C4 as stated ("never fetches that URL again"):
in the `cfgFail` run, `U` fails all three attempts at its first dequeue,
is rediscovered via `B`, and `fetch_url` is called on it a second time. -/
theorem claim_C4_counterexample :
    (fetch_url (cfgFail.succ "U")).1 = false ∧
      (crawlLoop cfgFail 10 (initState cfgFail)).fetchLog.count "U" = 2 := by decide

/-- Claim C5 (amended): dedup at enqueue time is only against the visited
set and the page accumulator, so a URL can occur several times in the
frontier; but once a URL has been processed successfully (it is in the
visited set), it is never enqueued again — its total number of queue
occurrences can only decrease. -/
theorem claim_C5 (cfg : CrawlConfig) (fuel : Nat) (st : CrawlState)
    (u : String) (hu : u ∈ st.visited) :
    occ u (crawlLoop cfg fuel st) ≤ occ u st :=
  crawlLoop_occ fuel hu

/-- Witness for claim C5 at a state where `U` is visited with a stale
queue copy. -/
theorem claim_C5_witness :
    "U" ∈ stVisited.visited ∧
      occ "U" (crawlLoop cfgFail 3 stVisited) ≤ occ "U" stVisited :=
  ⟨by decide, claim_C5 cfgFail 3 stVisited "U" (by decide)⟩

/-- Counterexample to claim C5 as stated ("each URL is present in at most
one of the two queues and at most once"): after two iterations of the
`cfgFail` run, the unfetched URL `U` sits twice in the low-priority
queue (it was discovered by both `A` and `B`). -/
theorem claim_C5_counterexample :
    (crawlLoop cfgFail 2 (initState cfgFail)).lowQ.count "U" = 2 := by decide

/-- Claim C6 (amended): the pages, images and links tables written by
`save_results` are each sorted by timestamp descending (for all adjacent
row pairs the earlier row's timestamp is at least the later one's); the
keyword-matches table, however, is written in dict insertion order and is
not sorted. -/
theorem claim_C6 (st : CrawlState) :
    rowsSortedDesc (fun r => r.2.2) (save_results st).pagesRows = true ∧
      rowsSortedDesc (fun r => r.2.2.2.2) (save_results st).imagesRows = true ∧
      rowsSortedDesc (fun r => r.2.2.2.2) (save_results st).linksRows = true :=
  ⟨sortDesc_sorted _ _, sortDesc_sorted _ _, sortDesc_sorted _ _⟩

/-- Counterexample to claim C6 as stated: in the `cfgKw` run two keyword
matches are recorded in chronological (ascending) order, so the written
keyword-matches rows are not sorted by timestamp descending. -/
theorem claim_C6_counterexample :
    ((save_results (crawlLoop cfgKw 2 (initState cfgKw))).kwRows.map
      (fun rows => rowsSortedDesc (fun r => r.2.2.2) rows)) = some false := by decide

/-- Claim C8: the keyword-matches file is written iff the keyword-match
accumulator is non-empty; in particular a run with an empty keyword list
produces no keyword-matches file. -/
theorem claim_C8 (st : CrawlState) :
    ((save_results st).kwRows = none ↔ st.kwMatches = []) ∧
      ∀ (cfg : CrawlConfig) (fuel : Nat), cfg.keywords = [] →
        (save_results (crawlLoop cfg fuel (initState cfg))).kwRows = none := by
  constructor
  · by_cases h : st.kwMatches = []
    · simp [save_results, h]
    · have hne : st.kwMatches.isEmpty = false := by
        simpa [List.isEmpty_iff] using h
      simp [save_results, hne, h]
  · intro cfg fuel hk
    have hempty := @crawlLoop_kw_empty cfg fuel (initState cfg) hk rfl
    simp [save_results, hempty]

/-- Witness for claim C8 at the keyword-free `cfgFail` run. -/
theorem claim_C8_witness :
    cfgFail.keywords = [] ∧
      (save_results (crawlLoop cfgFail 10 (initState cfgFail))).kwRows = none :=
  ⟨rfl, (claim_C8 (initState cfgFail)).2 cfgFail 10 rfl⟩

/-- Claim C9: `fetch_url` makes at most 3 attempts per call; it reports a
terminal failure exactly when all three attempts fail; every backoff wait
lies in the configured `[2s, 10s]` band, and in the fails-twice-then-
succeeds case the waits are exactly `[2, 4]` (multiplier 1, minimum 2,
exponential growth) with an overall success; the crawl loop observes only
the overall outcome (runs with attempt oracles of equal outcomes are
identical — retry transparency), and a URL whose fetch succeeds, such as
one succeeding at the third attempt, is recorded as a PageRecord. -/
theorem claim_C9 (succ : Nat → Bool) (cfg : CrawlConfig) :
    (fetch_url succ).2.1 ≤ 3 ∧
      ((fetch_url succ).1 = false ↔
        succ 1 = false ∧ succ 2 = false ∧ succ 3 = false) ∧
      (∀ w ∈ (fetch_url succ).2.2, 2 ≤ w ∧ w ≤ 10) ∧
      (succ 1 = false → succ 2 = false → succ 3 = true →
        fetch_url succ = (true, 3, [2, 4])) ∧
      (∀ s₂ : String → Nat → Bool,
        (∀ u, (fetch_url (s₂ u)).1 = (fetch_url (cfg.succ u)).1) →
        ∀ (fuel : Nat) (st : CrawlState),
          crawlLoop { cfg with succ := s₂ } fuel st = crawlLoop cfg fuel st) ∧
      (0 < cfg.maxCrawl → (fetch_url (cfg.succ cfg.seed)).1 = true →
        cfg.seed ∈ ((crawlLoop cfg 1 (initState cfg)).pages.map fun r => r.1)) := by
  refine ⟨?_, ?_, ?_, ?_,
    fun s₂ h fuel st => crawlLoop_fetch_congr h fuel st,
    fun hm hs => crawl_seed_recorded hm hs⟩ <;>
    cases h1 : succ 1 <;> cases h2 : succ 2 <;> cases h3 : succ 3 <;>
      norm_num [fetch_url, h1, h2, h3, wait_exponential]

/-- Witness for claim C9 at the fails-twice-succeeds-third oracle and the
`cfgRetry` run. -/
theorem claim_C9_witness :
    fetch_url (fun k => decide (k = 3)) = (true, 3, [2, 4]) ∧
      0 < cfgRetry.maxCrawl ∧
      cfgRetry.seed ∈
        ((crawlLoop cfgRetry 1 (initState cfgRetry)).pages.map fun r => r.1) := by
  have h := claim_C9 (fun k => decide (k = 3)) cfgRetry
  exact ⟨h.2.2.2.1 (by decide) (by decide) (by decide), by decide,
    h.2.2.2.2.2 (by decide) (by decide)⟩

end Webcrawler
